import Mathlib

/-!
Verification of the Railyard CocoIndex core (main/overlay semantic code
search) against its natural-language specification.

The Python sources are shallowly embedded as pure Lean functions:

* `merge_results`, `dispatch_dedup`, `search_dispatch` embed the merge and
  deduplication logic of `cocoindex/mcp_server.py` (floats are modelled as
  rationals, Python dicts as insertion-ordered association lists);
* `chunk_text` embeds the byte/newline chunker of `cocoindex/overlay.py`
  (Python strings are modelled as `List Char`; the unbounded `while` loop is
  modelled with a fuel argument equal to the text length, which is exact for
  every `chunk_size ≥ 1`, the only case in which the source loop terminates);
* `build` embeds `overlay.py build` with the database, the embedding model,
  git and `fnmatch` as abstract collaborators; database and model activity is
  recorded in an explicit effect trace;
* `refresh_overlay` embeds the refresh tool of `mcp_server.py`, with
  `json.loads` as an abstract collaborator and wall-clock instants as
  rationals;
* `overlay_table_name` embeds the engine-id sanitization, including the
  Python `re.match` semantics of `$` (which also matches just before a
  trailing newline).
-/

namespace Railyard

/-! ## Search result rows (mcp_server.py)

A search result row `{filename, code, location, score}`.  The cosine score,
a Python float, is modelled as a rational. -/

structure Row where
  filename : String
  code : String
  location : String
  score : ℚ
deriving DecidableEq, Repr

/-- The deduplication key `(filename, location)` used by every merge. -/
def rkey (r : Row) : String × String := (r.filename, r.location)

/-! ## Python dicts as insertion-ordered association lists

CPython dicts preserve insertion order; assigning to an existing key
replaces the value in place, assigning to a fresh key appends. -/

/-- `m[k] = v` on an insertion-ordered dict: replace the first binding of
`k` in place, or append a new binding if `k` is absent. -/
def dictSet {K V : Type} [DecidableEq K] : List (K × V) → K → V → List (K × V)
  | [], k, v => [(k, v)]
  | p :: ps, k, v => if p.1 = k then (k, v) :: ps else p :: dictSet ps k v

/-- `k in m` on a dict. -/
def containsKey {K V : Type} [DecidableEq K] (m : List (K × V)) (k : K) : Bool :=
  m.any (fun p => p.1 = k)

/-- `m[k]` on a dict (`none` when the key is absent). -/
def lookupA {K V : Type} [DecidableEq K] : List (K × V) → K → Option V
  | [], _ => none
  | p :: ps, k => if p.1 = k then some p.2 else lookupA ps k

/-- Descending-score comparison used by `sorted(..., key=score, reverse=True)`;
Python's sort is stable, and so is `List.mergeSort` with this relation. -/
def descLe (a b : Row) : Bool := decide (b.score ≤ a.score)

/-! ## merge_results (mcp_server.py lines 176-215) -/

/-- The merged dict built by `merge_results` before sorting: every overlay
row is inserted first, then each main row is inserted unless its filename is
in `deleted_files` or its key is already present (overlay wins). -/
def merge_map (main_results overlay_results : List Row) (deleted_files : List String) :
    List ((String × String) × Row) :=
  let merged0 := overlay_results.foldl (fun m r => dictSet m (rkey r) r) []
  main_results.foldl (fun m r =>
    if r.filename ∈ deleted_files then m
    else if containsKey m (rkey r) then m
    else dictSet m (rkey r) r) merged0

/-- `merge_results`: merge main and overlay results with overlay-wins
deduplication, sort by score descending, filter by `min_score`, truncate to
`top_k`. -/
def merge_results (main_results overlay_results : List Row) (deleted_files : List String)
    (top_k : Nat) (min_score : ℚ) : List Row :=
  let sorted_results :=
    ((merge_map main_results overlay_results deleted_files).map Prod.snd).mergeSort descLe
  (sorted_results.filter (fun r => decide (min_score ≤ r.score))).take top_k

/-! ## Dispatcher-mode search (mcp_server.py lines 243-265)

`search` in dispatcher mode (multiple main tables, no overlay) collects the
rows of all per-table queries into `all_results`; the embedding below starts
from that collected list. -/

/-- One step of the `seen` dict of dispatcher-mode `search`:
`if key not in seen or r["score"] > seen[key]["score"]: seen[key] = r`. -/
def dispatchStep (m : List ((String × String) × Row)) (r : Row) :
    List ((String × String) × Row) :=
  match lookupA m (rkey r) with
  | none => dictSet m (rkey r) r
  | some cur => if cur.score < r.score then dictSet m (rkey r) r else m

/-- The `seen` dict of dispatcher-mode `search`: keep one row per
`(filename, location)` key, replacing it only when a strictly higher score
arrives. -/
def dispatch_dedup (all_results : List Row) : List ((String × String) × Row) :=
  all_results.foldl dispatchStep []

/-- Dispatcher-mode merge: deduplicate by key keeping the maximum score,
sort by score descending, filter by `min_score`, truncate to `top_k`. -/
def search_dispatch (all_results : List Row) (top_k : Nat) (min_score : ℚ) : List Row :=
  let seen := dispatch_dedup all_results
  (((seen.map Prod.snd).mergeSort descLe).filter
    (fun r => decide (min_score ≤ r.score))).take top_k

/-! ## Text chunking (overlay.py lines 114-151)

Python strings are modelled as `List Char`.  `str.strip()` removes
whitespace from both ends; `isPySpace` covers the ASCII whitespace
characters recognised by `str.isspace()`. -/

/-- The whitespace characters recognised by Python `str.isspace()` and
stripped by `str.strip()`: `\t\n\x0b\x0c\r`, `\x1c`-`\x1f`, space, NEL,
NBSP, and the Unicode space separators (verified against CPython: exactly
the code points below satisfy `chr(c).isspace()`). -/
def isPySpace (c : Char) : Bool :=
  let n := c.toNat
  (9 ≤ n && n ≤ 13) || (28 ≤ n && n ≤ 31) || n == 32 || n == 133 || n == 160 ||
    n == 0x1680 || (0x2000 ≤ n && n ≤ 0x200a) || n == 0x2028 || n == 0x2029 ||
    n == 0x202f || n == 0x205f || n == 0x3000

/-- Python `str.strip()`. -/
def pyStrip (l : List Char) : List Char :=
  ((l.dropWhile isPySpace).reverse.dropWhile isPySpace).reverse

/-- Python `text[a:b]` for `0 ≤ a, b`. -/
def pySlice (l : List Char) (a b : Nat) : List Char := (l.take b).drop a

/-- One pass of `text.rfind("\n", lo, hi)`: remember the highest index `i`
with `lo ≤ i < hi` holding a newline. -/
def rfindNLAux : List Char → Nat → Nat → Nat → Option Nat → Option Nat
  | [], _, _, _, best => best
  | c :: cs, i, lo, hi, best =>
    rfindNLAux cs (i + 1) lo hi (if c = '\n' ∧ lo ≤ i ∧ i < hi then some i else best)

/-- Python `text.rfind("\n", lo, hi)` (`none` for the `-1` result). -/
def rfindNL (text : List Char) (lo hi : Nat) : Option Nat :=
  rfindNLAux text 0 lo hi none

/-- One emitted chunk.  The source stores the location as the string
`f"{chunk_idx}:{start}"`; the embedding keeps the two components and renders
the string with `Chunk.location`. -/
structure Chunk where
  text : List Char
  idx : Nat
  off : Nat
deriving DecidableEq, Repr

/-- Decimal digit character (`str(int)` produces decimal digits). -/
def digitChar10 (d : Nat) : Char := Char.ofNat (48 + d)

/-- Decimal rendering of a natural number, as Python `str(int)` on
non-negative values. -/
def natChars (n : Nat) : List Char :=
  if n < 10 then [digitChar10 n]
  else natChars (n / 10) ++ [digitChar10 (n % 10)]
decreasing_by exact Nat.div_lt_self (by omega) (by omega)

/-- The location label `f"{idx}:{off}"`. -/
def locStr (i o : Nat) : String := String.mk (natChars i ++ ':' :: natChars o)

/-- The location string of a chunk. -/
def Chunk.location (c : Chunk) : String := locStr c.idx c.off

/-- Python `next_start = end - chunk_overlap; if next_start <= start:
next_start = end` (truncated `Nat` subtraction agrees with the Python
comparison because `start ≥ 0`). -/
def nextStart (start end1 cover : Nat) : Nat :=
  if end1 - cover ≤ start then end1 else end1 - cover

/-- The window end of one loop iteration: `end = min(start + chunk_size,
len(text))`, moved to just past the last newline in the final quarter of the
window when the window does not reach EOF. -/
def chunkEnd (text : List Char) (csize start : Nat) : Nat :=
  let end0 := min (start + csize) text.length
  if end0 < text.length then
    match rfindNL text (start + csize * 3 / 4) end0 with
    | some p => if start < p then p + 1 else end0
    | none => end0
  else end0

/-- The `while start < len(text)` loop of `chunk_text`.  The fuel argument
makes the recursion structural; `chunk_text` passes `text.length`, which is
exact whenever `chunk_size ≥ 1` because `start` strictly increases each
iteration (for `chunk_size = 0` the source loop never terminates, and the
fueled model cuts it off). -/
def chunkLoop (text : List Char) (csize cover : Nat) : Nat → Nat → Nat → List Chunk
  | 0, _, _ => []
  | fuel + 1, start, idx =>
    if start < text.length then
      if pyStrip (pySlice text start (chunkEnd text csize start)) = [] then
        chunkLoop text csize cover fuel (nextStart start (chunkEnd text csize start) cover) idx
      else
        ⟨pySlice text start (chunkEnd text csize start), idx, start⟩ ::
          chunkLoop text csize cover fuel (nextStart start (chunkEnd text csize start) cover)
            (idx + 1)
    else []

/-- `chunk_text(text, chunk_size, chunk_overlap)`: split text into
overlapping chunks, breaking at newline boundaries when possible. -/
def chunk_text (text : List Char) (csize cover : Nat) : List Chunk :=
  if pyStrip text = [] then []
  else if text.length ≤ csize then [⟨text, 0, 0⟩]
  else chunkLoop text csize cover text.length 0 0

/-! ## Engine-id sanitization (overlay.py lines 29-39, cocoindex_config.py) -/

/-- A character of the class `[a-zA-Z0-9_-]`. -/
def isSafeChar (c : Char) : Bool := c.isAlpha || c.isDigit || c == '_' || c == '-'

/-- Python `re.match(r"^[a-zA-Z0-9_-]+$", s)` truthiness.  In Python `$`
matches at the end of the string or just before a newline at the end of the
string, so a safe body followed by one trailing newline also matches. -/
def safeMatchPy (s : List Char) : Bool :=
  (!s.isEmpty && s.all isSafeChar) ||
  (s.getLast? == some '\n' && !s.dropLast.isEmpty && s.dropLast.all isSafeChar)

/-- The anchored-language reading of the spec's regex `^[A-Za-z0-9_-]+$`:
the whole string is a non-empty run of safe characters.  This is the
spec-side definition compared against the source's `safeMatchPy`. -/
def safeFullmatch (s : List Char) : Bool := !s.isEmpty && s.all isSafeChar

/-- `overlay_table_name(engine_id, prefix)`: raise `ValueError` unless the
Python regex matches, else prepend the prefix to the engine id with `-`
replaced by `_`. -/
def overlay_table_name (engine_id : String) (prefixStr : String) : Except String String :=
  if !safeMatchPy engine_id.data then .error ("invalid engine_id: " ++ engine_id)
  else .ok (prefixStr ++ String.mk (engine_id.data.map (fun c => if c = '-' then '_' else c)))

/-! ## Overlay build (overlay.py lines 159-264)

The database, the embedding model, git and `fnmatch` are external
collaborators: git results, the file system, the glob matcher and the
embedder enter as parameters, and database/model activity is recorded in an
explicit effect trace. -/

/-- A row inserted into the overlay table. -/
structure InsRow where
  filename : String
  location : String
  code : List Char
  embedding : List ℚ
deriving DecidableEq, Repr

/-- The JSON object `build` prints on stdout and returns. -/
inductive BuildOut
  | noChanges
  | done (files chunks deleted : Nat) (table : String)
deriving DecidableEq, Repr

/-- Observable side effects of `build` (model load, database work, the
stdout report). -/
inductive Eff
  | loadModel
  | connectDb
  | createTable (table : String)
  | truncateTable (table : String)
  | insertRow (table : String) (r : InsRow)
  | createIndex (table : String)
  | upsertMeta (engine_id track branch headCommit : String)
      (files chunks : Nat) (deleted : List String)
  | commit
  | closeConn
  | printLine (out : BuildOut)
deriving DecidableEq, Repr

/-- `filter_by_patterns`: keep files matching at least one glob pattern
(`fnmatch` is the stdlib collaborator). -/
def filter_by_patterns (fnmatch : String → String → Bool)
    (files patterns : List String) : List String :=
  files.filter (fun f => patterns.any (fun p => fnmatch f p))

/-- `CocoIndexConfig.included_patterns_for_track`: the per-track override
when set, else the CLI patterns. -/
def included_patterns_for_track (includedOverride : Option (List String))
    (default_patterns : List String) : List String :=
  includedOverride.getD default_patterns

/-- `overlay.py build`: diff-driven overlay rebuild.  `fs f` is the content
of changed file `f` when it exists and is readable (`none` models both the
`os.path.exists` failure and the `OSError` skip). -/
def build (fnmatch : String → String → Bool) (encode : List Char → List ℚ)
    (fs : String → Option (List Char))
    (changedRaw deletedRaw : List String) (headCommit branchName : String)
    (engine_id track : String) (file_patterns : List String)
    (includedOverride : Option (List String)) (prefixStr : String) :
    Except String BuildOut × List Eff :=
  let patterns := included_patterns_for_track includedOverride file_patterns
  let changed := filter_by_patterns fnmatch changedRaw patterns
  let deleted := filter_by_patterns fnmatch deletedRaw patterns
  if changed.isEmpty && deleted.isEmpty then
    (.ok .noChanges, [.printLine .noChanges])
  else
    let rows := changed.flatMap (fun f =>
      match fs f with
      | none => []
      | some content =>
        (chunk_text content 1500 300).map
          (fun c => InsRow.mk f (Chunk.location c) c.text (encode c.text)))
    match overlay_table_name engine_id prefixStr with
    | .error e => (.error e, [.loadModel])
    | .ok table =>
      let out := BuildOut.done changed.length rows.length deleted.length table
      (.ok out,
        [.loadModel, .connectDb, .createTable table, .truncateTable table]
          ++ rows.map (fun r => Eff.insertRow table r)
          ++ (if 10 ≤ rows.length then [Eff.createIndex table] else [])
          ++ [Eff.upsertMeta engine_id track branchName headCommit
                changed.length rows.length deleted,
              Eff.commit, Eff.closeConn, Eff.printLine out])

/-! ## Overlay refresh (mcp_server.py lines 341-391) -/

/-- The fields `refresh_overlay` reads from the parsed build report
(`output.get(key, 0)` defaults a missing key to `0`). -/
structure BuildReport where
  files_indexed : Option Int
  chunks_indexed : Option Int
deriving DecidableEq, Repr

/-- The dict returned by `refresh_overlay` (the missing-configuration error
carries no `duration_ms`, the subprocess error does). -/
inductive RefreshResult
  | error (message : String) (duration_ms : Option Int)
  | rate_limited (retry_after_sec : Int)
  | ok (files_indexed chunks_indexed : Int) (duration_ms : Int)
deriving DecidableEq, Repr

/-- `REFRESH_COOLDOWN_SEC = 30`. -/
def REFRESH_COOLDOWN_SEC : Nat := 30

/-- Python `str.strip()` on a `String`. -/
def pyStripStr (s : String) : String := String.mk (pyStrip s.data)

/-- The final line of a string (spec-side helper: the spec asks for the
final stdout line to be parsed as the report). -/
def lastLine (s : String) : String :=
  String.mk ((s.data.reverse.takeWhile (fun c => !(c == '\n'))).reverse)

/-- `refresh_overlay` as a transition on the process-wide rate-limit
timestamp.  Inputs: which of engine id / worktree / track are configured,
the stored `_last_refresh_time`, the current time `now` (rationals model the
float clock), the measured subprocess duration in ms, the subprocess exit
code, stripped stderr and raw stdout, and `loads`, the `json.loads`
collaborator applied by the source to the whole stripped stdout.  Output:
the result dict, the new `_last_refresh_time`, and whether the subprocess
was invoked. -/
def refresh_overlay (hasEngine hasWorktree hasTrack : Bool)
    (last now : ℚ) (durationMs : Int) (returncode : Int)
    (stderrStripped stdout : String)
    (loads : String → Option BuildReport) : RefreshResult × ℚ × Bool :=
  if !(hasEngine && hasWorktree && hasTrack) then
    (.error "Missing engine_id, worktree, or track" none, last, false)
  else if now - last < (REFRESH_COOLDOWN_SEC : ℚ) then
    (.rate_limited ⌊(REFRESH_COOLDOWN_SEC : ℚ) - (now - last)⌋, last, false)
  else if returncode ≠ 0 then
    (.error stderrStripped (some durationMs), now, true)
  else
    match loads (pyStripStr stdout) with
    | some rep => (.ok (rep.files_indexed.getD 0) (rep.chunks_indexed.getD 0) durationMs, now, true)
    | none => (.ok 0 0 durationMs, now, true)

/-- Spec-side report extraction for the refinement comparison in C2: parse
only the final stdout line. -/
def spec_refresh_report (loads : String → Option BuildReport) (stdout : String) :
    Option BuildReport :=
  loads (lastLine (pyStripStr stdout))

/-! ## A concrete `json.loads` collaborator

`json.loads` is stdlib; the model below covers exactly the flat
string-to-integer JSON objects that `overlay.py` emits via `json.dumps`
(separators `", "` and `": "`), and rejects everything else.  The concrete
strings the theorems evaluate it on lie in this fragment, where it agrees
with `json.loads` (in particular, `json.loads` raises on multi-line input
whose first line is not JSON). -/

/-- Numeric value of a digit string (most significant digit first). -/
def charsVal (l : List Char) : Nat := l.foldl (fun a c => a * 10 + (c.toNat - 48)) 0

/-- Parse a run of decimal digits. -/
def parseNatChars (l : List Char) : Option (Nat × List Char) :=
  let ds := l.takeWhile Char.isDigit
  if ds.isEmpty then none
  else some (charsVal ds, l.dropWhile Char.isDigit)

/-- Parse a JSON string literal (no escapes, as in the emitted reports). -/
def parseStringLit : List Char → Option (String × List Char)
  | '"' :: rest =>
    match rest.dropWhile (fun c => !(c == '"')) with
    | '"' :: rest2 => some (String.mk (rest.takeWhile (fun c => !(c == '"'))), rest2)
    | _ => none
  | _ => none

/-- Parse `"key": n` pairs separated by `", "`. -/
def parsePairsAux : Nat → List Char → Option (List (String × Nat) × List Char)
  | 0, _ => none
  | fuel + 1, l =>
    match parseStringLit l with
    | none => none
    | some (k, rest) =>
      match rest with
      | ':' :: ' ' :: rest2 =>
        match parseNatChars rest2 with
        | none => none
        | some (n, rest3) =>
          match rest3 with
          | ',' :: ' ' :: rest4 =>
            match parsePairsAux fuel rest4 with
            | some (kvs, rest5) => some ((k, n) :: kvs, rest5)
            | none => none
          | _ => some ([(k, n)], rest3)
      | _ => none

/-- Flat-object fragment of `json.loads`. -/
def jsonLoadsFlat (s : String) : Option (List (String × Nat)) :=
  match s.data with
  | '\x7b' :: rest =>
    match parsePairsAux (rest.length + 1) rest with
    | some (kvs, ['\x7d']) => some kvs
    | _ => none
  | _ => none

/-- `json.loads` collaborator producing the fields `refresh_overlay` reads. -/
def jsonLoadsReport (s : String) : Option BuildReport :=
  match jsonLoadsFlat s with
  | none => none
  | some kvs =>
    some ⟨(lookupA kvs "files_indexed").map Int.ofNat,
          (lookupA kvs "chunks_indexed").map Int.ofNat⟩

/-- Shorthand for the shared tail of every search mode: sort descending by
score, filter by `min_score`, take `top_k`. -/
def topList (l : List Row) (top_k : Nat) (min_score : ℚ) : List Row :=
  ((l.mergeSort descLe).filter (fun r => decide (min_score ≤ r.score))).take top_k

/-! ## Concrete instances used by witnesses and counterexamples -/

/-- Main-table rows: a key shadowed by the overlay with a higher main score,
a row from a deleted file, and an untouched row. -/
def mainW1 : List Row :=
  [⟨"a.go", "old", "0:0", (9 : ℚ)⟩, ⟨"gone.go", "g", "0:0", (8 : ℚ)⟩,
   ⟨"keep.go", "k", "0:0", (7 : ℚ)⟩]

/-- Overlay rows: same key as the first main row, lower score. -/
def overlayW1 : List Row := [⟨"a.go", "new", "0:0", (5 : ℚ)⟩]

/-- Overlay row whose filename is itself listed in `deleted_files`. -/
def overlayW2 : List Row := [⟨"del.go", "new", "0:0", (9 : ℚ)⟩]

/-- Main row for the same deleted filename. -/
def mainW2 : List Row := [⟨"del.go", "old", "0:0", (8 : ℚ)⟩]

/-- Rows collected from two main tables in dispatcher mode: one shared key
with scores 7 and 9, plus a distinct row. -/
def allW3 : List Row :=
  [⟨"shared.go", "c1", "0:0", (7 : ℚ)⟩, ⟨"other.go", "o", "0:0", (6 : ℚ)⟩,
   ⟨"shared.go", "c2", "0:0", (9 : ℚ)⟩]

/-- 1500 spaces followed by one letter: the first chunker window is
whitespace-only and is not emitted. -/
def wsText : List Char := List.replicate 1500 ' ' ++ ['x']

/-- A subprocess stdout consisting of exactly one JSON report line. -/
def stdoutSingle : String := "\x7b\"files_indexed\": 3, \"chunks_indexed\": 15\x7d"

/-- A subprocess stdout with a progress line above the final JSON line. -/
def stdoutMulti : String :=
  "indexed 2 files\n\x7b\"files_indexed\": 2, \"chunks_indexed\": 9\x7d"

/-! ## Dict lemmas -/

theorem containsKey_eq_true_iff {K V : Type} [DecidableEq K] (m : List (K × V)) (k : K) :
    containsKey m k = true ↔ ∃ p ∈ m, p.1 = k := by
  simp [containsKey]

theorem containsKey_append {K V : Type} [DecidableEq K] (m₁ m₂ : List (K × V)) (k : K) :
    containsKey (m₁ ++ m₂) k = (containsKey m₁ k || containsKey m₂ k) := by
  simp [containsKey, List.any_append]

theorem dictSet_of_not_containsKey {K V : Type} [DecidableEq K]
    {m : List (K × V)} {k : K} (v : V) (h : containsKey m k = false) :
    dictSet m k v = m ++ [(k, v)] := by
  induction m with
  | nil => rfl
  | cons p ps ih =>
    simp only [containsKey, List.any_cons, Bool.or_eq_false_iff] at h
    simp only [dictSet, if_neg (by simpa using h.1)]
    rw [ih h.2]
    simp

/-! ## The overlay-seeding fold of merge_results -/

theorem overlay_fold_eq (l : List Row) (acc : List ((String × String) × Row))
    (hn : (l.map rkey).Nodup)
    (hd : ∀ r ∈ l, containsKey acc (rkey r) = false) :
    l.foldl (fun m r => dictSet m (rkey r) r) acc
      = acc ++ l.map (fun r => (rkey r, r)) := by
  induction l generalizing acc with
  | nil => simp
  | cons r rs ih =>
    simp only [List.foldl_cons]
    rw [dictSet_of_not_containsKey r (hd r (by simp))]
    rw [ih (acc ++ [(rkey r, r)]) (by simpa using hn.of_cons)]
    · simp
    · intro r' hr'
      rw [containsKey_append, Bool.or_eq_false_iff]
      refine ⟨hd r' (by simp [hr']), ?_⟩
      have hne : rkey r ≠ rkey r' := by
        simp only [List.map_cons, List.nodup_cons] at hn
        intro hcontra
        exact hn.1 (hcontra ▸ List.mem_map_of_mem rkey hr')
      simp [containsKey, hne]

/-! ## The main-results fold of merge_results -/

theorem main_fold_extra (deleted : List String) (main : List Row)
    (acc : List ((String × String) × Row)) :
    ∃ extra,
      main.foldl (fun m r =>
          if r.filename ∈ deleted then m
          else if containsKey m (rkey r) then m
          else dictSet m (rkey r) r) acc = acc ++ extra
      ∧ ∀ p ∈ extra, p.1 = rkey p.2 ∧ p.2 ∈ main ∧ p.2.filename ∉ deleted
          ∧ containsKey acc p.1 = false := by
  induction main generalizing acc with
  | nil => exact ⟨[], by simp, by simp⟩
  | cons r rs ih =>
    simp only [List.foldl_cons]
    by_cases hdel : r.filename ∈ deleted
    · rw [if_pos hdel]
      obtain ⟨extra, heq, hprop⟩ := ih acc
      exact ⟨extra, heq, fun p hp =>
        ⟨(hprop p hp).1, List.mem_cons_of_mem r (hprop p hp).2.1,
         (hprop p hp).2.2.1, (hprop p hp).2.2.2⟩⟩
    · rw [if_neg hdel]
      by_cases hck : containsKey acc (rkey r) = true
      · rw [if_pos hck]
        obtain ⟨extra, heq, hprop⟩ := ih acc
        exact ⟨extra, heq, fun p hp =>
          ⟨(hprop p hp).1, List.mem_cons_of_mem r (hprop p hp).2.1,
           (hprop p hp).2.2.1, (hprop p hp).2.2.2⟩⟩
      · rw [if_neg hck]
        rw [dictSet_of_not_containsKey r (by simpa using hck)]
        obtain ⟨extra, heq, hprop⟩ := ih (acc ++ [(rkey r, r)])
        refine ⟨(rkey r, r) :: extra, by simpa using heq, ?_⟩
        intro p hp
        rcases List.mem_cons.mp hp with hp | hp
        · subst hp
          exact ⟨rfl, by simp, hdel, by simpa using hck⟩
        · obtain ⟨h1, h2, h3, h4⟩ := hprop p hp
          rw [containsKey_append, Bool.or_eq_false_iff] at h4
          exact ⟨h1, List.mem_cons_of_mem r h2, h3, h4.1⟩

/-- Characterization of the merged dict when the overlay keys are distinct
(the overlay table's primary key `(filename, location)` guarantees this):
the dict is the overlay rows, in order, followed by surviving main rows
whose keys do not occur in the overlay. -/
theorem merge_map_eq (main overlay : List Row) (deleted : List String)
    (hn : (overlay.map rkey).Nodup) :
    ∃ extra,
      merge_map main overlay deleted = overlay.map (fun r => (rkey r, r)) ++ extra
      ∧ ∀ p ∈ extra, p.1 = rkey p.2 ∧ p.2 ∈ main ∧ p.2.filename ∉ deleted
          ∧ containsKey (overlay.map (fun r => (rkey r, r))) p.1 = false := by
  unfold merge_map
  rw [overlay_fold_eq overlay [] hn (by intro r _; rfl)]
  simpa using main_fold_extra deleted main (overlay.map (fun r => (rkey r, r)))

/-! ## Sorting, filtering and truncation plumbing -/

theorem descLe_trans : ∀ a b c : Row, descLe a b = true → descLe b c = true → descLe a c = true := by
  intro a b c hab hbc
  simp only [descLe, decide_eq_true_eq] at *
  exact le_trans hbc hab

theorem descLe_total : ∀ a b : Row, (descLe a b || descLe b a) = true := by
  intro a b
  simp only [descLe, Bool.or_eq_true, decide_eq_true_eq]
  exact le_total b.score a.score

theorem topList_subset {l : List Row} {top_k : Nat} {min_score : ℚ} {r : Row}
    (hr : r ∈ topList l top_k min_score) : r ∈ l ∧ min_score ≤ r.score := by
  have h1 : r ∈ (l.mergeSort descLe).filter (fun r => decide (min_score ≤ r.score)) :=
    (List.take_sublist _ _).mem hr
  rw [List.mem_filter] at h1
  exact ⟨(l.mergeSort_perm descLe).mem_iff.mp h1.1, by simpa using h1.2⟩

theorem topList_sorted (l : List Row) (top_k : Nat) (min_score : ℚ) :
    (topList l top_k min_score).Pairwise (fun a b => b.score ≤ a.score) := by
  have hs := List.sorted_mergeSort descLe_trans descLe_total l
  have hsub : (topList l top_k min_score).Sublist (l.mergeSort descLe) :=
    (List.take_sublist _ _).trans (List.filter_sublist _)
  exact (List.Pairwise.sublist hsub hs).imp (by simp [descLe])

theorem topList_length (l : List Row) (top_k : Nat) (min_score : ℚ) :
    (topList l top_k min_score).length ≤ top_k := by
  simp only [topList, List.length_take]
  exact min_le_left _ _

theorem topList_complete {l : List Row} {top_k : Nat} {min_score : ℚ} {r : Row}
    (hr : r ∈ l) (hs : min_score ≤ r.score)
    (hout : r ∉ topList l top_k min_score) :
    (topList l top_k min_score).length = top_k := by
  have h1 : r ∈ (l.mergeSort descLe).filter (fun r => decide (min_score ≤ r.score)) := by
    rw [List.mem_filter]
    exact ⟨(l.mergeSort_perm descLe).mem_iff.mpr hr, by simpa using hs⟩
  by_contra hne
  have hlt : ((l.mergeSort descLe).filter
      (fun r => decide (min_score ≤ r.score))).length ≤ top_k := by
    by_contra hgt
    push_neg at hgt
    exact hne (by simp [topList, List.length_take]; omega)
  exact hout (by simpa [topList, List.take_of_length_le hlt] using h1)

theorem merge_results_eq_topList (main overlay : List Row) (deleted : List String)
    (top_k : Nat) (min_score : ℚ) :
    merge_results main overlay deleted top_k min_score
      = topList ((merge_map main overlay deleted).map Prod.snd) top_k min_score := rfl

/-! ## C1: dual-table merge correctness -/

/-- C1: In every dual-table merge (overlay keys being distinct by the
overlay table's primary key), every returned row is an overlay row or a
main row whose filename is not deleted; any returned row whose key matches
an overlay row is that overlay row (overlay wins, carrying the overlay's
code and score, even against a higher-scoring main row); every overlay row
enters the merged map; and the output is sorted by score descending,
filtered to `min_score ≤ score`, and truncated to `top_k`. -/
theorem merge_results_dual_table_correct
    (main overlay : List Row) (deleted : List String) (top_k : Nat) (min_score : ℚ)
    (hkeys : (overlay.map rkey).Nodup) :
    (∀ r ∈ merge_results main overlay deleted top_k min_score,
        r ∈ overlay ∨ (r ∈ main ∧ r.filename ∉ deleted))
    ∧ (∀ o ∈ overlay, ∀ r ∈ merge_results main overlay deleted top_k min_score,
        rkey r = rkey o → r = o)
    ∧ (∀ o ∈ overlay, o ∈ (merge_map main overlay deleted).map Prod.snd)
    ∧ (merge_results main overlay deleted top_k min_score).Pairwise
        (fun a b => b.score ≤ a.score)
    ∧ (∀ r ∈ merge_results main overlay deleted top_k min_score, min_score ≤ r.score)
    ∧ (merge_results main overlay deleted top_k min_score).length ≤ top_k := by
  obtain ⟨extra, hmap, hextra⟩ := merge_map_eq main overlay deleted hkeys
  have hvals : (merge_map main overlay deleted).map Prod.snd
      = overlay ++ extra.map Prod.snd := by
    rw [hmap]
    simp [Function.comp_def]
  have hmem : ∀ r ∈ merge_results main overlay deleted top_k min_score,
      r ∈ overlay ++ extra.map Prod.snd ∧ min_score ≤ r.score := by
    intro r hr
    rw [merge_results_eq_topList, hvals] at hr
    exact topList_subset hr
  refine ⟨?_, ?_, ?_, ?_, ?_, ?_⟩
  · intro r hr
    rcases List.mem_append.mp (hmem r hr).1 with h | h
    · exact Or.inl h
    · obtain ⟨p, hp, hpr⟩ := List.mem_map.mp h
      obtain ⟨_, h2, h3, _⟩ := hextra p hp
      exact Or.inr ⟨hpr ▸ h2, hpr ▸ h3⟩
  · intro o ho r hr hk
    rcases List.mem_append.mp (hmem r hr).1 with h | h
    · exact List.inj_on_of_nodup_map hkeys h ho hk
    · obtain ⟨p, hp, hpr⟩ := List.mem_map.mp h
      obtain ⟨h1, _, _, h4⟩ := hextra p hp
      have : containsKey (overlay.map (fun r => (rkey r, r))) p.1 = true := by
        rw [containsKey_eq_true_iff]
        exact ⟨(rkey o, o), List.mem_map_of_mem _ ho, by rw [h1, hpr, hk]⟩
      rw [h4] at this
      exact absurd this (by simp)
  · intro o ho
    rw [hvals]
    exact List.mem_append.mpr (Or.inl ho)
  · rw [merge_results_eq_topList]
    exact topList_sorted _ _ _
  · intro r hr
    exact (hmem r hr).2
  · rw [merge_results_eq_topList]
    exact topList_length _ _ _

/-- Witness for C1 at a concrete input: the overlay row for `a.go` beats a
higher-scoring main row with the same key, and the `gone.go` main row is
suppressed. -/
theorem merge_results_dual_table_correct_witness :
    ((overlayW1.map rkey).Nodup)
    ∧ ((∀ r ∈ merge_results mainW1 overlayW1 ["gone.go"] 10 0,
          r ∈ overlayW1 ∨ (r ∈ mainW1 ∧ r.filename ∉ ["gone.go"]))
      ∧ (∀ o ∈ overlayW1, ∀ r ∈ merge_results mainW1 overlayW1 ["gone.go"] 10 0,
          rkey r = rkey o → r = o)
      ∧ (∀ o ∈ overlayW1, o ∈ (merge_map mainW1 overlayW1 ["gone.go"]).map Prod.snd)
      ∧ (merge_results mainW1 overlayW1 ["gone.go"] 10 0).Pairwise
          (fun a b => b.score ≤ a.score)
      ∧ (∀ r ∈ merge_results mainW1 overlayW1 ["gone.go"] 10 0, (0 : ℚ) ≤ r.score)
      ∧ (merge_results mainW1 overlayW1 ["gone.go"] 10 0).length ≤ 10) :=
  ⟨by simp [overlayW1, rkey],
   merge_results_dual_table_correct mainW1 overlayW1 ["gone.go"] 10 0
     (by simp [overlayW1, rkey])⟩

/-! ## C10: overlay rows are never suppressed by deleted_files -/

/-- C10: every overlay row — in particular one whose filename appears in
`deleted_files` — is placed in the merged map (the deleted-files check
applies only to main rows), and if it is absent from the search output the
only possible reasons are the `min_score` filter or the `top_k`
truncation. -/
theorem merge_results_overlay_not_suppressed
    (main overlay : List Row) (deleted : List String) (top_k : Nat) (min_score : ℚ)
    (o : Row) (hkeys : (overlay.map rkey).Nodup) (ho : o ∈ overlay) :
    o ∈ (merge_map main overlay deleted).map Prod.snd
    ∧ (o ∉ merge_results main overlay deleted top_k min_score →
        o.score < min_score
          ∨ (merge_results main overlay deleted top_k min_score).length = top_k) := by
  obtain ⟨extra, hmap, _⟩ := merge_map_eq main overlay deleted hkeys
  have hvals : (merge_map main overlay deleted).map Prod.snd
      = overlay ++ extra.map Prod.snd := by
    rw [hmap]
    simp [Function.comp_def]
  have hval : o ∈ (merge_map main overlay deleted).map Prod.snd := by
    rw [hvals]
    exact List.mem_append.mpr (Or.inl ho)
  refine ⟨hval, ?_⟩
  intro hout
  by_cases hs : min_score ≤ o.score
  · right
    rw [merge_results_eq_topList]
    rw [merge_results_eq_topList] at hout
    exact topList_complete hval hs hout
  · exact Or.inl (lt_of_not_le hs)

/-- Witness for C10 at a concrete input: the overlay row's filename
`del.go` is listed in `deleted_files`, yet the row enters the merged map
and can only be dropped by the score filter or the truncation. -/
theorem merge_results_overlay_not_suppressed_witness :
    ((overlayW2.map rkey).Nodup)
    ∧ (⟨"del.go", "new", "0:0", (9 : ℚ)⟩ ∈ overlayW2)
    ∧ ((⟨"del.go", "new", "0:0", (9 : ℚ)⟩ : Row)
          ∈ (merge_map mainW2 overlayW2 ["del.go"]).map Prod.snd
      ∧ ((⟨"del.go", "new", "0:0", (9 : ℚ)⟩ : Row)
            ∉ merge_results mainW2 overlayW2 ["del.go"] 10 0 →
          (⟨"del.go", "new", "0:0", (9 : ℚ)⟩ : Row).score < 0
            ∨ (merge_results mainW2 overlayW2 ["del.go"] 10 0).length = 10)) :=
  ⟨by simp [overlayW2, rkey], by simp [overlayW2],
   merge_results_overlay_not_suppressed mainW2 overlayW2 ["del.go"] 10 0
     ⟨"del.go", "new", "0:0", (9 : ℚ)⟩ (by simp [overlayW2, rkey])
     (by simp [overlayW2])⟩

/-! ## Dispatcher dedup lemmas -/

theorem lookupA_eq_none_iff {K V : Type} [DecidableEq K] (m : List (K × V)) (k : K) :
    lookupA m k = none ↔ containsKey m k = false := by
  induction m with
  | nil => simp [lookupA, containsKey]
  | cons p ps ih =>
    by_cases h : p.1 = k
    · simp [lookupA, containsKey, h]
    · simp only [lookupA, if_neg h, containsKey, List.any_cons, Bool.or_eq_false_iff]
      rw [ih]
      simp [containsKey, h]

theorem lookupA_mem {K V : Type} [DecidableEq K] {m : List (K × V)} {k : K} {v : V}
    (h : lookupA m k = some v) : (k, v) ∈ m := by
  induction m with
  | nil => simp [lookupA] at h
  | cons p ps ih =>
    by_cases hk : p.1 = k
    · rw [lookupA, if_pos hk] at h
      have hv : p.2 = v := by injection h
      have hp : (k, v) = p := by
        rw [← hk, ← hv]
      rw [hp]
      exact List.mem_cons_self p ps
    · rw [lookupA, if_neg hk] at h
      exact List.mem_cons_of_mem p (ih h)

theorem containsKey_eq_false_iff {K V : Type} [DecidableEq K] (m : List (K × V)) (k : K) :
    containsKey m k = false ↔ k ∉ m.map Prod.fst := by
  rw [← Bool.not_eq_true, containsKey_eq_true_iff]
  simp [List.mem_map, eq_comm]

theorem keys_dictSet {K V : Type} [DecidableEq K] (m : List (K × V)) (k : K) (v : V) :
    (dictSet m k v).map Prod.fst
      = if containsKey m k then m.map Prod.fst else m.map Prod.fst ++ [k] := by
  induction m with
  | nil => simp [dictSet, containsKey]
  | cons p ps ih =>
    by_cases h : p.1 = k
    · simp [dictSet, containsKey, h]
    · simp only [dictSet, if_neg h, List.map_cons, ih, containsKey, List.any_cons]
      by_cases h2 : containsKey ps k
      · simp [containsKey] at h2
        simp [h, h2]
      · simp only [containsKey] at h2
        simp [h, h2]

theorem containsKey_dictSet_self {K V : Type} [DecidableEq K] (m : List (K × V)) (k : K) (v : V) :
    containsKey (dictSet m k v) k = true := by
  induction m with
  | nil => simp [dictSet, containsKey]
  | cons p ps ih =>
    by_cases h : p.1 = k
    · simp [dictSet, h, containsKey]
    · simp only [dictSet, if_neg h, containsKey, List.any_cons, Bool.or_eq_true]
      exact Or.inr ih

theorem containsKey_dictSet_mono {K V : Type} [DecidableEq K] {m : List (K × V)} {k' : K}
    (k : K) (v : V) (h : containsKey m k' = true) :
    containsKey (dictSet m k v) k' = true := by
  induction m with
  | nil => simp [containsKey] at h
  | cons p ps ih =>
    simp only [containsKey, List.any_cons, Bool.or_eq_true] at h
    by_cases hk : p.1 = k
    · rcases h with h | h
      · simp only [decide_eq_true_eq] at h
        simp [dictSet, hk, containsKey, hk ▸ h]
      · simp only [dictSet, if_pos hk, containsKey, List.any_cons, Bool.or_eq_true]
        exact Or.inr h
    · rcases h with h | h
      · simp only [dictSet, if_neg hk, containsKey, List.any_cons, Bool.or_eq_true]
        exact Or.inl h
      · simp only [dictSet, if_neg hk, containsKey, List.any_cons, Bool.or_eq_true]
        exact Or.inr (ih h)

theorem mem_dictSet_of_nodup {K V : Type} [DecidableEq K] {m : List (K × V)}
    (hn : (m.map Prod.fst).Nodup) {k : K} {v : V} {p : K × V} (hp : p ∈ dictSet m k v) :
    p = (k, v) ∨ (p ∈ m ∧ p.1 ≠ k) := by
  induction m with
  | nil => simpa [dictSet] using hp
  | cons q qs ih =>
    simp only [List.map_cons, List.nodup_cons] at hn
    by_cases hk : q.1 = k
    · rw [dictSet, if_pos hk] at hp
      rcases List.mem_cons.mp hp with hp | hp
      · exact Or.inl hp
      · refine Or.inr ⟨List.mem_cons_of_mem q hp, ?_⟩
        intro hcontra
        exact hn.1 (hk ▸ hcontra ▸ List.mem_map_of_mem Prod.fst hp)
    · rw [dictSet, if_neg hk] at hp
      rcases List.mem_cons.mp hp with hp | hp
      · exact Or.inr ⟨hp ▸ List.mem_cons_self q qs, hp ▸ hk⟩
      · rcases ih hn.2 hp with h | h
        · exact Or.inl h
        · exact Or.inr ⟨List.mem_cons_of_mem q h.1, h.2⟩

/-- Keys of an association list with `Nodup` keys determine entries. -/
theorem key_inj {K V : Type} [DecidableEq K] {m : List (K × V)}
    (hn : (m.map Prod.fst).Nodup) {p q : K × V}
    (hp : p ∈ m) (hq : q ∈ m) (h : p.1 = q.1) : p = q :=
  List.inj_on_of_nodup_map hn hp hq h

theorem dispatchStep_none {m : List ((String × String) × Row)} {r : Row}
    (h : lookupA m (rkey r) = none) : dispatchStep m r = dictSet m (rkey r) r := by
  unfold dispatchStep
  rw [h]

theorem dispatchStep_some {m : List ((String × String) × Row)} {r cur : Row}
    (h : lookupA m (rkey r) = some cur) :
    dispatchStep m r = if cur.score < r.score then dictSet m (rkey r) r else m := by
  unfold dispatchStep
  rw [h]

/-- Invariant of the `seen`-building fold of dispatcher-mode search: keys
are distinct, every entry is keyed by its row's key, comes from the
processed rows and carries the maximum score for its key, and every
processed key has an entry. -/
theorem dispatch_fold_invariant (rest done : List Row)
    (m : List ((String × String) × Row))
    (h1 : (m.map Prod.fst).Nodup)
    (h2 : ∀ p ∈ m, p.1 = rkey p.2 ∧ p.2 ∈ done
        ∧ ∀ s ∈ done, rkey s = p.1 → s.score ≤ p.2.score)
    (h3 : ∀ s ∈ done, containsKey m (rkey s) = true) :
    (((rest.foldl dispatchStep m).map Prod.fst).Nodup)
    ∧ (∀ p ∈ rest.foldl dispatchStep m,
        p.1 = rkey p.2 ∧ p.2 ∈ done ++ rest
          ∧ ∀ s ∈ done ++ rest, rkey s = p.1 → s.score ≤ p.2.score)
    ∧ (∀ s ∈ done ++ rest, containsKey (rest.foldl dispatchStep m) (rkey s) = true) := by
  induction rest generalizing done m with
  | nil =>
    simp only [List.foldl_nil, List.append_nil]
    exact ⟨h1, h2, h3⟩
  | cons r rs ih =>
    simp only [List.foldl_cons]
    have key : (done ++ r :: rs) = (done ++ [r]) ++ rs := by simp
    rw [key]
    cases hl : lookupA m (rkey r) with
    | none =>
      rw [dispatchStep_none hl]
      have hck : containsKey m (rkey r) = false := (lookupA_eq_none_iff m (rkey r)).mp hl
      have hknotin : rkey r ∉ m.map Prod.fst := (containsKey_eq_false_iff m (rkey r)).mp hck
      refine ih (done ++ [r]) (dictSet m (rkey r) r) ?_ ?_ ?_
      · rw [keys_dictSet, if_neg (by simp [hck])]
        refine List.Nodup.append h1 (by simp) ?_
        intro a ha hb
        simp only [List.mem_singleton] at hb
        subst hb
        exact hknotin ha
      · intro p hp
        rcases mem_dictSet_of_nodup h1 hp with hpe | ⟨hpm, hpk⟩
        · subst hpe
          refine ⟨rfl, by simp, ?_⟩
          intro s hs hsk
          rcases List.mem_append.mp hs with hs | hs
          · have hc := h3 s hs
            rw [hsk, hck] at hc
            exact absurd hc (by simp)
          · simp only [List.mem_singleton] at hs
            subst hs
            exact le_refl _
        · obtain ⟨hk2, hdone, hmax⟩ := h2 p hpm
          refine ⟨hk2, List.mem_append.mpr (Or.inl hdone), ?_⟩
          intro s hs hsk
          rcases List.mem_append.mp hs with hs | hs
          · exact hmax s hs hsk
          · simp only [List.mem_singleton] at hs
            subst hs
            exact absurd hsk.symm hpk
      · intro s hs
        rcases List.mem_append.mp hs with hs | hs
        · exact containsKey_dictSet_mono _ _ (h3 s hs)
        · simp only [List.mem_singleton] at hs
          subst hs
          exact containsKey_dictSet_self m (rkey s) s
    | some cur =>
      rw [dispatchStep_some hl]
      have hcur : (rkey r, cur) ∈ m := lookupA_mem hl
      have hckt : containsKey m (rkey r) = true := by
        rw [containsKey_eq_true_iff]
        exact ⟨(rkey r, cur), hcur, rfl⟩
      by_cases hlt : cur.score < r.score
      · rw [if_pos hlt]
        refine ih (done ++ [r]) (dictSet m (rkey r) r) ?_ ?_ ?_
        · rw [keys_dictSet, if_pos (by simp [hckt])]
          exact h1
        · intro p hp
          rcases mem_dictSet_of_nodup h1 hp with hpe | ⟨hpm, hpk⟩
          · subst hpe
            refine ⟨rfl, by simp, ?_⟩
            intro s hs hsk
            rcases List.mem_append.mp hs with hs | hs
            · exact le_trans ((h2 (rkey r, cur) hcur).2.2 s hs hsk) (le_of_lt hlt)
            · simp only [List.mem_singleton] at hs
              subst hs
              exact le_refl _
          · obtain ⟨hk2, hdone, hmax⟩ := h2 p hpm
            refine ⟨hk2, List.mem_append.mpr (Or.inl hdone), ?_⟩
            intro s hs hsk
            rcases List.mem_append.mp hs with hs | hs
            · exact hmax s hs hsk
            · simp only [List.mem_singleton] at hs
              subst hs
              exact absurd hsk.symm hpk
        · intro s hs
          rcases List.mem_append.mp hs with hs | hs
          · exact containsKey_dictSet_mono _ _ (h3 s hs)
          · simp only [List.mem_singleton] at hs
            subst hs
            exact containsKey_dictSet_self m (rkey s) s
      · rw [if_neg hlt]
        refine ih (done ++ [r]) m h1 ?_ ?_
        · intro p hp
          obtain ⟨hk2, hdone, hmax⟩ := h2 p hp
          refine ⟨hk2, List.mem_append.mpr (Or.inl hdone), ?_⟩
          intro s hs hsk
          rcases List.mem_append.mp hs with hs | hs
          · exact hmax s hs hsk
          · simp only [List.mem_singleton] at hs
            subst hs
            have hpc : p = (rkey s, cur) := key_inj h1 hp hcur hsk.symm
            rw [hpc]
            exact le_of_not_lt hlt
        · intro s hs
          rcases List.mem_append.mp hs with hs | hs
          · exact h3 s hs
          · simp only [List.mem_singleton] at hs
            subst hs
            exact hckt

/-- The dedup map of dispatcher mode: distinct keys, entries keyed by their
row's key carrying the maximum collected score, one entry per collected
key. -/
theorem dispatch_dedup_spec (all : List Row) :
    ((dispatch_dedup all).map Prod.fst).Nodup
    ∧ (∀ p ∈ dispatch_dedup all, p.1 = rkey p.2 ∧ p.2 ∈ all
        ∧ ∀ s ∈ all, rkey s = p.1 → s.score ≤ p.2.score)
    ∧ (∀ s ∈ all, containsKey (dispatch_dedup all) (rkey s) = true) := by
  have h := dispatch_fold_invariant all [] [] (by simp) (by simp) (by simp)
  simpa [dispatch_dedup] using h

theorem search_dispatch_eq_topList (all : List Row) (top_k : Nat) (min_score : ℚ) :
    search_dispatch all top_k min_score
      = topList ((dispatch_dedup all).map Prod.snd) top_k min_score := rfl

/-! ## C5: dispatcher-mode deduplication -/

/-- C5: dispatcher-mode search deduplicates the collected rows by
`(filename, location)`: output keys are pairwise distinct, every output row
comes from the collected rows and carries the maximum collected score for
its key, every collected key retains exactly one entry in the dedup map,
and the output is sorted by score descending, filtered by `min_score` and
truncated to `top_k`. -/
theorem search_dispatch_dedup_correct (all : List Row) (top_k : Nat) (min_score : ℚ) :
    ((search_dispatch all top_k min_score).map rkey).Nodup
    ∧ (∀ r ∈ search_dispatch all top_k min_score,
        r ∈ all ∧ min_score ≤ r.score ∧ ∀ s ∈ all, rkey s = rkey r → s.score ≤ r.score)
    ∧ (∀ s ∈ all, containsKey (dispatch_dedup all) (rkey s) = true)
    ∧ (search_dispatch all top_k min_score).Pairwise (fun a b => b.score ≤ a.score)
    ∧ (search_dispatch all top_k min_score).length ≤ top_k := by
  obtain ⟨hnd, hent, hcov⟩ := dispatch_dedup_spec all
  have hkeys : ((dispatch_dedup all).map Prod.snd).map rkey
      = (dispatch_dedup all).map Prod.fst := by
    rw [List.map_map]
    exact List.map_congr_left (fun p hp => ((hent p hp).1).symm)
  refine ⟨?_, ?_, hcov, ?_, ?_⟩
  · have hperm : ((((dispatch_dedup all).map Prod.snd).mergeSort descLe).map rkey).Nodup := by
      rw [List.Perm.nodup_iff
        (List.Perm.map rkey (List.mergeSort_perm ((dispatch_dedup all).map Prod.snd) descLe))]
      rw [hkeys]
      exact hnd
    have hsub : (search_dispatch all top_k min_score).Sublist
        (((dispatch_dedup all).map Prod.snd).mergeSort descLe) := by
      rw [search_dispatch_eq_topList]
      exact (List.take_sublist _ _).trans (List.filter_sublist _)
    exact List.Nodup.sublist (hsub.map rkey) hperm
  · intro r hr
    rw [search_dispatch_eq_topList] at hr
    obtain ⟨hrv, hrs⟩ := topList_subset hr
    obtain ⟨p, hp, hpr⟩ := List.mem_map.mp hrv
    obtain ⟨hk, hmem, hmax⟩ := hent p hp
    refine ⟨hpr ▸ hmem, hrs, ?_⟩
    intro s hs hsk
    have := hmax s hs (by rw [hsk, ← hpr, hk])
    rw [hpr] at this
    exact this
  · rw [search_dispatch_eq_topList]
    exact topList_sorted _ _ _
  · rw [search_dispatch_eq_topList]
    exact topList_length _ _ _

/-- Witness for C5 at a concrete input: two tables both return the key
`("shared.go", "0:0")` with scores 7 and 9; the 9-row survives exactly
once. -/
theorem search_dispatch_dedup_correct_witness :
    ((search_dispatch allW3 10 0).map rkey).Nodup
    ∧ (∀ r ∈ search_dispatch allW3 10 0,
        r ∈ allW3 ∧ (0 : ℚ) ≤ r.score ∧ ∀ s ∈ allW3, rkey s = rkey r → s.score ≤ r.score)
    ∧ (∀ s ∈ allW3, containsKey (dispatch_dedup allW3) (rkey s) = true)
    ∧ (search_dispatch allW3 10 0).Pairwise (fun a b => b.score ≤ a.score)
    ∧ (search_dispatch allW3 10 0).length ≤ 10 :=
  search_dispatch_dedup_correct allW3 10 0

/-! ## Refresh branch lemmas -/

theorem refresh_rate_branch (last now : ℚ) (durationMs returncode : Int)
    (stderrStripped stdout : String) (loads : String → Option BuildReport)
    (h : now - last < (REFRESH_COOLDOWN_SEC : ℚ)) :
    refresh_overlay true true true last now durationMs returncode stderrStripped stdout loads
      = (.rate_limited ⌊(REFRESH_COOLDOWN_SEC : ℚ) - (now - last)⌋, last, false) := by
  unfold refresh_overlay
  rw [if_neg (by simp), if_pos h]

theorem refresh_error_branch (last now : ℚ) (durationMs returncode : Int)
    (stderrStripped stdout : String) (loads : String → Option BuildReport)
    (h : ¬(now - last < (REFRESH_COOLDOWN_SEC : ℚ))) (hrc : returncode ≠ 0) :
    refresh_overlay true true true last now durationMs returncode stderrStripped stdout loads
      = (.error stderrStripped (some durationMs), now, true) := by
  unfold refresh_overlay
  rw [if_neg (by simp), if_neg h, if_pos hrc]

theorem refresh_ok_branch (last now : ℚ) (durationMs : Int)
    (stderrStripped stdout : String) (loads : String → Option BuildReport)
    (h : ¬(now - last < (REFRESH_COOLDOWN_SEC : ℚ))) :
    refresh_overlay true true true last now durationMs 0 stderrStripped stdout loads
      = (match loads (pyStripStr stdout) with
         | some rep =>
             RefreshResult.ok (rep.files_indexed.getD 0) (rep.chunks_indexed.getD 0) durationMs
         | none => RefreshResult.ok 0 0 durationMs, now, true) := by
  unfold refresh_overlay
  rw [if_neg (by simp), if_neg h, if_neg (by simp)]
  cases loads (pyStripStr stdout) <;> rfl

/-! ## C4: refresh rate limiting -/

/-- C4: the cooldown is 30 seconds; a call arriving less than 30 seconds
after the stored acceptance timestamp returns `rate_limited` with the
truncated remaining seconds, does not invoke the subprocess, and leaves the
timestamp unchanged; an accepted call invokes the subprocess and stores the
acceptance time `now` as the new timestamp — independently of the
subprocess duration, so a slow refresh does not extend the cooldown. -/
theorem refresh_overlay_rate_limit_correct
    (last now : ℚ) (durationMs returncode : Int)
    (stderrStripped stdout : String) (loads : String → Option BuildReport) :
    REFRESH_COOLDOWN_SEC = 30
    ∧ (now - last < (REFRESH_COOLDOWN_SEC : ℚ) →
      refresh_overlay true true true last now durationMs returncode stderrStripped stdout loads
        = (.rate_limited ⌊(REFRESH_COOLDOWN_SEC : ℚ) - (now - last)⌋, last, false))
    ∧ (¬(now - last < (REFRESH_COOLDOWN_SEC : ℚ)) →
      (refresh_overlay true true true last now durationMs returncode stderrStripped stdout
          loads).2 = (now, true)) := by
  refine ⟨rfl, ?_, ?_⟩
  · intro h
    exact refresh_rate_branch last now durationMs returncode stderrStripped stdout loads h
  · intro h
    by_cases hrc : returncode = 0
    · subst hrc
      rw [refresh_ok_branch last now durationMs stderrStripped stdout loads h]
    · rw [refresh_error_branch last now durationMs returncode stderrStripped stdout loads h hrc]

/-- Witness for C4 at concrete inputs: a call 10 seconds after acceptance is
rejected with 20 seconds to wait and leaves the timestamp at 0; a call 100
seconds after acceptance stores 100 and invokes the subprocess. -/
theorem refresh_overlay_rate_limit_correct_witness :
    refresh_overlay true true true 0 10 500 0 "" stdoutSingle jsonLoadsReport
      = (.rate_limited ⌊(REFRESH_COOLDOWN_SEC : ℚ) - ((10 : ℚ) - 0)⌋, 0, false)
    ∧ (refresh_overlay true true true 0 100 500 0 "" stdoutSingle jsonLoadsReport).2
      = (100, true) :=
  ⟨(refresh_overlay_rate_limit_correct 0 10 500 0 "" stdoutSingle jsonLoadsReport).2.1
      (by norm_num [REFRESH_COOLDOWN_SEC]),
   (refresh_overlay_rate_limit_correct 0 100 500 0 "" stdoutSingle jsonLoadsReport).2.2
      (by norm_num [REFRESH_COOLDOWN_SEC])⟩

/-! ## C2: refresh stdout parsing -/

/-- Counterexample to C2: the subprocess exits 0 with a progress line above
the final JSON line.  `json.loads` on the whole stripped stdout fails
(modelled by the collaborator returning `none`), although the final line
alone parses to the report `(2, 9)`.  The source then returns
`{status: ok, files_indexed: 0, chunks_indexed: 0}` — it neither parses the
final line nor reports a subprocess error. -/
theorem refresh_overlay_final_line_counterexample :
    refresh_overlay true true true 0 100 2000 0 "" stdoutMulti jsonLoadsReport
      = (.ok 0 0 2000, 100, true)
    ∧ jsonLoadsReport (pyStripStr stdoutMulti) = none
    ∧ spec_refresh_report jsonLoadsReport stdoutMulti = some ⟨some 2, some 9⟩
    ∧ (RefreshResult.ok 0 0 2000 ≠ RefreshResult.ok 2 9 2000)
    ∧ (∀ m d, RefreshResult.ok 0 0 2000 ≠ RefreshResult.error m d) := by
  have hparse : jsonLoadsReport (pyStripStr stdoutMulti) = none := by decide
  refine ⟨?_, hparse, by decide, by decide, fun m d => by simp⟩
  rw [refresh_ok_branch 0 100 2000 "" stdoutMulti jsonLoadsReport
    (by norm_num [REFRESH_COOLDOWN_SEC]), hparse]

/-- C2 amended: when the subprocess exits 0, the tool applies `json.loads`
to the entire stripped stdout (not only the final line); on success it
returns `{status: ok}` with the report's counts (a missing key defaulting
to 0) and the integer `duration_ms`; a stdout-parse failure is not reported
as an error — the tool still returns `{status: ok}` with both counts 0 and
`duration_ms` attached. -/
theorem refresh_overlay_stdout_parse_amended
    (last now : ℚ) (durationMs : Int) (stderrStripped stdout : String)
    (loads : String → Option BuildReport)
    (hacc : ¬(now - last < (REFRESH_COOLDOWN_SEC : ℚ))) :
    (loads (pyStripStr stdout) = none →
      refresh_overlay true true true last now durationMs 0 stderrStripped stdout loads
        = (.ok 0 0 durationMs, now, true))
    ∧ ∀ rep, loads (pyStripStr stdout) = some rep →
      refresh_overlay true true true last now durationMs 0 stderrStripped stdout loads
        = (.ok (rep.files_indexed.getD 0) (rep.chunks_indexed.getD 0) durationMs, now, true) := by
  constructor
  · intro hp
    rw [refresh_ok_branch last now durationMs stderrStripped stdout loads hacc, hp]
  · intro rep hp
    rw [refresh_ok_branch last now durationMs stderrStripped stdout loads hacc, hp]

/-- Witness for C2 (amended) at a concrete input: a single-JSON-line stdout
parses and its counts are returned with `status: ok`. -/
theorem refresh_overlay_stdout_parse_amended_witness :
    refresh_overlay true true true 0 100 1234 0 "" stdoutSingle jsonLoadsReport
      = (.ok 3 15 1234, 100, true) :=
  (refresh_overlay_stdout_parse_amended 0 100 1234 "" stdoutSingle jsonLoadsReport
      (by norm_num [REFRESH_COOLDOWN_SEC])).2 ⟨some 3, some 15⟩ (by decide)

/-! ## C9: engine-id sanitization -/

/-- C9 (code bug): the sanitization is claimed to raise exactly when the
engine id falls outside the language of `^[A-Za-z0-9_-]+$`, before any
store access.  The id `"eng-a\n"` is outside that language (it contains a
newline), yet the source accepts it — Python's `$` also matches just before
a trailing newline — and constructs the table name `"ovl_eng_a\n"`, so a
table name is built from an unsanitized engine id. -/
theorem overlay_table_name_trailing_newline_bug :
    safeFullmatch ("eng-a\n".data) = false
    ∧ safeMatchPy ("eng-a\n".data) = true
    ∧ overlay_table_name "eng-a\n" "ovl_" = .ok "ovl_eng_a\n"
    ∧ '\n' ∈ "ovl_eng_a\n".data
    ∧ (∀ s : String, overlay_table_name "bad;id" s = .error ("invalid engine_id: " ++ "bad;id")) :=
  ⟨by decide, by decide, rfl, by decide, fun s => rfl⟩

/-! ## C8: no-changes build touches nothing -/

/-- C8: when both the changed and the deleted list are empty after pattern
filtering, `build` returns the `no_changes` report, the only effect is the
single stdout line — no database connection, no table or metadata write and
no embedding-model load happen. -/
theorem build_no_changes_frame (fnmatch : String → String → Bool)
    (encode : List Char → List ℚ) (fs : String → Option (List Char))
    (changedRaw deletedRaw : List String) (headCommit branchName : String)
    (engine_id track : String) (file_patterns : List String)
    (includedOverride : Option (List String)) (prefixStr : String)
    (hch : filter_by_patterns fnmatch changedRaw
        (included_patterns_for_track includedOverride file_patterns) = [])
    (hdel : filter_by_patterns fnmatch deletedRaw
        (included_patterns_for_track includedOverride file_patterns) = []) :
    build fnmatch encode fs changedRaw deletedRaw headCommit branchName engine_id track
        file_patterns includedOverride prefixStr
      = (.ok .noChanges, [.printLine .noChanges])
    ∧ ∀ e ∈ (build fnmatch encode fs changedRaw deletedRaw headCommit branchName engine_id
        track file_patterns includedOverride prefixStr).2,
        e = Eff.printLine BuildOut.noChanges := by
  have h1 : build fnmatch encode fs changedRaw deletedRaw headCommit branchName engine_id
      track file_patterns includedOverride prefixStr
      = (.ok .noChanges, [.printLine .noChanges]) := by
    dsimp only [build]
    rw [hch, hdel]
    rfl
  refine ⟨h1, ?_⟩
  rw [h1]
  intro e he
  simpa using he

/-- Witness for C8 at a concrete input: one changed and one deleted file,
none matching the track's patterns. -/
theorem build_no_changes_frame_witness :
    build (fun _ _ => false) (fun _ => []) (fun _ => none) ["hello.go"] ["README.md"]
        "deadbeef" "ry/feat" "eng-abc123" "backend" ["*.rs"] none "ovl_"
      = (.ok .noChanges, [.printLine .noChanges])
    ∧ ∀ e ∈ (build (fun _ _ => false) (fun _ => []) (fun _ => none) ["hello.go"] ["README.md"]
        "deadbeef" "ry/feat" "eng-abc123" "backend" ["*.rs"] none "ovl_").2,
        e = Eff.printLine BuildOut.noChanges :=
  build_no_changes_frame (fun _ _ => false) (fun _ => []) (fun _ => none) ["hello.go"]
    ["README.md"] "deadbeef" "ry/feat" "eng-abc123" "backend" ["*.rs"] none "ovl_"
    (by decide) (by decide)

/-! ## C3: files_indexed counts skipped files too -/

/-- Counterexample to C3: one changed file matching the patterns, missing at
read time (`fs` yields `none` everywhere).  The build reports
`files_indexed = 1` although 0 files were successfully read (and indeed no
row is inserted: `chunks_indexed = 0`).  The claim demands a file count of
successful reads only, i.e. 0. -/
theorem build_files_indexed_counterexample :
    (build (fun _ _ => true) (fun _ => []) (fun _ => none) ["gone.go"] [] "deadbeef"
        "ry/feat" "eng-abc123" "backend" ["*"] none "ovl_").1
      = .ok (.done 1 0 0 "ovl_eng_abc123")
    ∧ (∀ f : String, (fun (_ : String) => (none : Option (List Char))) f = none)
    ∧ (1 : Nat) ≠ 0 :=
  ⟨rfl, fun _ => rfl, by decide⟩

/-- C3 amended: `files_indexed` is the number of changed files that survive
pattern filtering, whether or not they can be read — a missing or unreadable
file is skipped silently but still counted; only `chunks_indexed` (and the
inserted rows) reflect successful reads, a skipped file contributing zero
chunks. -/
theorem build_counts_amended (fnmatch : String → String → Bool)
    (encode : List Char → List ℚ) (fs : String → Option (List Char))
    (changedRaw deletedRaw : List String) (headCommit branchName : String)
    (engine_id track : String) (file_patterns : List String)
    (includedOverride : Option (List String)) (prefixStr table : String)
    (hne : ¬(filter_by_patterns fnmatch changedRaw
          (included_patterns_for_track includedOverride file_patterns) = []
        ∧ filter_by_patterns fnmatch deletedRaw
          (included_patterns_for_track includedOverride file_patterns) = []))
    (htab : overlay_table_name engine_id prefixStr = .ok table) :
    (build fnmatch encode fs changedRaw deletedRaw headCommit branchName engine_id track
        file_patterns includedOverride prefixStr).1
      = .ok (.done
          (filter_by_patterns fnmatch changedRaw
            (included_patterns_for_track includedOverride file_patterns)).length
          ((filter_by_patterns fnmatch changedRaw
              (included_patterns_for_track includedOverride file_patterns)).map
            (fun f => match fs f with
              | none => 0
              | some content => (chunk_text content 1500 300).length)).sum
          (filter_by_patterns fnmatch deletedRaw
            (included_patterns_for_track includedOverride file_patterns)).length
          table) := by
  dsimp only [build]
  rw [htab]
  have hcond : ((filter_by_patterns fnmatch changedRaw
        (included_patterns_for_track includedOverride file_patterns)).isEmpty
      && (filter_by_patterns fnmatch deletedRaw
        (included_patterns_for_track includedOverride file_patterns)).isEmpty) = false := by
    rw [Bool.and_eq_false_iff]
    by_contra hc
    push_neg at hc
    exact hne ⟨List.isEmpty_iff.mp (Bool.not_eq_false _ |>.mp hc.1),
      List.isEmpty_iff.mp (Bool.not_eq_false _ |>.mp hc.2)⟩
  rw [hcond]
  simp only [Bool.false_eq_true, if_false]
  congr 1
  rw [List.length_flatMap]
  have hmap := List.map_congr_left
    (l := filter_by_patterns fnmatch changedRaw
      (included_patterns_for_track includedOverride file_patterns))
    (f := List.length ∘ fun f =>
      match fs f with
      | none => ([] : List InsRow)
      | some content =>
        List.map (fun c => InsRow.mk f (Chunk.location c) c.text (encode c.text))
          (chunk_text content 1500 300))
    (g := fun f =>
      match fs f with
      | none => 0
      | some content => (chunk_text content 1500 300).length)
    (fun f _ => by cases hfs : fs f <;> simp [hfs])
  rw [hmap]

/-- Witness for C3 (amended) at a concrete input: two changed files match
the patterns, one readable and one missing; `files_indexed = 2` while
`chunks_indexed = 1`. -/
theorem build_counts_amended_witness :
    (build (fun _ _ => true) (fun _ => []) (fun f => if f = "ok.go" then some ['a'] else none)
        ["ok.go", "gone.go"] [] "deadbeef" "ry/feat" "eng-abc123" "backend" ["*"] none
        "ovl_").1
      = .ok (.done
          (filter_by_patterns (fun _ _ => true) ["ok.go", "gone.go"]
            (included_patterns_for_track none ["*"])).length
          ((filter_by_patterns (fun _ _ => true) ["ok.go", "gone.go"]
              (included_patterns_for_track none ["*"])).map
            (fun f => match (if f = "ok.go" then some ['a'] else none : Option (List Char)) with
              | none => 0
              | some content => (chunk_text content 1500 300).length)).sum
          (filter_by_patterns (fun _ _ => true) []
            (included_patterns_for_track none ["*"])).length
          "ovl_eng_abc123") :=
  build_counts_amended (fun _ _ => true) (fun _ => [])
    (fun f => if f = "ok.go" then some ['a'] else none) ["ok.go", "gone.go"] []
    "deadbeef" "ry/feat" "eng-abc123" "backend" ["*"] none "ovl_" "ovl_eng_abc123"
    (by decide) rfl

/-! ## Location rendering lemmas -/

theorem digitChar10_toNat (d : Nat) (h : d < 10) : (digitChar10 d).toNat = 48 + d := by
  interval_cases d <;> decide

theorem natChars_toNat_bounds (n : Nat) :
    ∀ c ∈ natChars n, 48 ≤ c.toNat ∧ c.toNat ≤ 57 := by
  induction n using Nat.strong_induction_on with
  | _ n ih =>
    rw [natChars]
    by_cases h : n < 10
    · rw [if_pos h]
      intro c hc
      simp only [List.mem_singleton] at hc
      subst hc
      rw [digitChar10_toNat n h]
      omega
    · rw [if_neg h]
      intro c hc
      rcases List.mem_append.mp hc with hc | hc
      · exact ih (n / 10) (Nat.div_lt_self (by omega) (by omega)) c hc
      · simp only [List.mem_singleton] at hc
        subst hc
        rw [digitChar10_toNat (n % 10) (Nat.mod_lt _ (by omega))]
        omega

theorem colon_not_mem_natChars (n : Nat) : ':' ∉ natChars n := by
  intro h
  have hb := natChars_toNat_bounds n ':' h
  have : (':').toNat = 58 := rfl
  omega

theorem charsVal_append_digit (l : List Char) (c : Char) :
    charsVal (l ++ [c]) = charsVal l * 10 + (c.toNat - 48) := by
  simp [charsVal, List.foldl_append]

theorem charsVal_natChars (n : Nat) : charsVal (natChars n) = n := by
  induction n using Nat.strong_induction_on with
  | _ n ih =>
    rw [natChars]
    by_cases h : n < 10
    · rw [if_pos h]
      simp only [charsVal, List.foldl_cons, List.foldl_nil]
      rw [digitChar10_toNat n h]
      omega
    · rw [if_neg h]
      rw [charsVal_append_digit, ih (n / 10) (Nat.div_lt_self (by omega) (by omega)),
        digitChar10_toNat (n % 10) (Nat.mod_lt _ (by omega))]
      omega

theorem natChars_inj {m n : Nat} (h : natChars m = natChars n) : m = n := by
  rw [← charsVal_natChars m, h, charsVal_natChars]

theorem sep_append_inj : ∀ {xs as : List Char} {ys bs : List Char},
    ':' ∉ xs → ':' ∉ as → xs ++ ':' :: ys = as ++ ':' :: bs → xs = as ∧ ys = bs := by
  intro xs
  induction xs with
  | nil =>
    intro as ys bs _ ha h
    cases as with
    | nil => simpa using h
    | cons a as' =>
      simp only [List.nil_append, List.cons_append, List.cons.injEq] at h
      exact absurd (h.1 ▸ List.mem_cons_self a as') ha
  | cons x xs' ih =>
    intro as ys bs hx ha h
    cases as with
    | nil =>
      simp only [List.cons_append, List.nil_append, List.cons.injEq] at h
      exact absurd (h.1 ▸ List.mem_cons_self x xs') hx
    | cons a as' =>
      simp only [List.cons_append, List.cons.injEq] at h
      obtain ⟨hxa, hrest⟩ := h
      have := ih (fun hm => hx (List.mem_cons_of_mem x hm))
        (fun hm => ha (List.mem_cons_of_mem a hm)) hrest
      exact ⟨by rw [hxa, this.1], this.2⟩

theorem locStr_inj {i o j p : Nat} (h : locStr i o = locStr j p) : i = j ∧ o = p := by
  unfold locStr at h
  have hl : natChars i ++ ':' :: natChars o = natChars j ++ ':' :: natChars p := by
    injection h
  obtain ⟨h1, h2⟩ :=
    sep_append_inj (colon_not_mem_natChars i) (colon_not_mem_natChars j) hl
  exact ⟨natChars_inj h1, natChars_inj h2⟩

/-- With `chunk_size ≥ 1` the window end of an iteration lies strictly
beyond its start (so the loop always advances). -/
theorem chunkEnd_gt (text : List Char) (csize start : Nat)
    (h1 : start < text.length) (h2 : 1 ≤ csize) : start < chunkEnd text csize start := by
  have hmin : start < min (start + csize) text.length := by
    rw [Nat.lt_min]
    constructor <;> omega
  simp only [chunkEnd]
  split
  · split <;> (try split) <;> omega
  · omega

/-! ## Chunk loop lemmas -/

theorem chunkLoop_idx_ge (text : List Char) (csize cover : Nat) :
    ∀ (fuel start idx : Nat), ∀ ch ∈ chunkLoop text csize cover fuel start idx,
      idx ≤ ch.idx := by
  intro fuel
  induction fuel with
  | zero =>
    intro start idx ch h
    simp [chunkLoop] at h
  | succ fuel ih =>
    intro start idx ch h
    rw [chunkLoop] at h
    by_cases hs : start < text.length
    · rw [if_pos hs] at h
      by_cases hstrip : pyStrip (pySlice text start (chunkEnd text csize start)) = []
      · rw [if_pos hstrip] at h
        exact ih _ _ ch h
      · rw [if_neg hstrip] at h
        rcases List.mem_cons.mp h with h | h
        · subst h
          exact le_refl _
        · have := ih _ _ ch h
          omega
    · rw [if_neg hs] at h
      simp at h

theorem chunkLoop_idx_nodup (text : List Char) (csize cover : Nat) :
    ∀ (fuel start idx : Nat),
      ((chunkLoop text csize cover fuel start idx).map Chunk.idx).Nodup := by
  intro fuel
  induction fuel with
  | zero =>
    intro start idx
    simp [chunkLoop]
  | succ fuel ih =>
    intro start idx
    rw [chunkLoop]
    by_cases hs : start < text.length
    · rw [if_pos hs]
      by_cases hstrip : pyStrip (pySlice text start (chunkEnd text csize start)) = []
      · rw [if_pos hstrip]
        exact ih _ _
      · rw [if_neg hstrip]
        simp only [List.map_cons, List.nodup_cons]
        refine ⟨?_, ih _ _⟩
        intro hmem
        obtain ⟨ch, hch, hcheq⟩ := List.mem_map.mp hmem
        have := chunkLoop_idx_ge text csize cover fuel _ _ ch hch
        omega
    · rw [if_neg hs]
      simp

/-- A list whose head is not whitespace strips to a non-empty list. -/
theorem pyStrip_cons_ne_nil (c : Char) (l : List Char) (hc : isPySpace c = false) :
    pyStrip (c :: l) ≠ [] := by
  unfold pyStrip
  intro h
  rw [List.reverse_eq_nil_iff, List.dropWhile_eq_nil_iff] at h
  have hmem : c ∈ ((c :: l).dropWhile isPySpace).reverse := by
    rw [List.dropWhile_cons, hc]
    simp
  have hcontra := h c hmem
  rw [hc] at hcontra
  exact absurd hcontra (by simp)

/-! ## C7: chunk locations are pairwise distinct -/

/-- C7: for every input text and every `chunk_size ≥ 1` and overlap, the
location strings of the emitted chunks are pairwise distinct (the chunk
index strictly increases with each emission, and the decimal rendering
`f"{idx}:{start}"` is injective).  For `chunk_size = 0` the source loop
never terminates and emits nothing. -/
theorem chunk_text_locations_distinct (text : List Char) (csize cover : Nat)
    (hcs : 1 ≤ csize) :
    ((chunk_text text csize cover).map Chunk.location).Nodup := by
  have hmain : ∀ l : List Chunk, ((l.map Chunk.idx).Nodup) →
      ((l.map Chunk.location).Nodup) := by
    intro l hidx
    have h1 : l.Pairwise (fun a b => a.idx ≠ b.idx) := by
      have := (List.pairwise_map (l := l) (f := Chunk.idx) (R := (· ≠ ·))).mp hidx
      exact this
    have h2 : l.Pairwise (fun a b => Chunk.location a ≠ Chunk.location b) := by
      refine h1.imp ?_
      intro a b hne heq
      exact hne (locStr_inj heq).1
    exact List.pairwise_map.mpr h2
  unfold chunk_text
  by_cases h1 : pyStrip text = []
  · rw [if_pos h1]
    simp
  · rw [if_neg h1]
    by_cases h2 : text.length ≤ csize
    · rw [if_pos h2]
      simp
    · rw [if_neg h2]
      exact hmain _ (chunkLoop_idx_nodup text csize cover text.length 0 0)

/-- Witness for C7 at a concrete input. -/
theorem chunk_text_locations_distinct_witness :
    1 ≤ 5 ∧ ((chunk_text ('a' :: "bcdefgh".data) 5 2).map Chunk.location).Nodup :=
  ⟨by decide, chunk_text_locations_distinct ('a' :: "bcdefgh".data) 5 2 (by decide)⟩

/-! ## C6: first chunk offset -/

set_option maxRecDepth 100000 in
/-- Counterexample to C6: 1500 spaces followed by `x` has non-empty trimmed
text, yet the first emitted chunk (with the default `chunk_size = 1500`,
`chunk_overlap = 300`) begins at byte offset 1200, not 0 — the first window
is whitespace-only and is skipped without emitting a chunk. -/
theorem chunk_text_first_offset_counterexample :
    pyStrip wsText ≠ []
    ∧ (chunk_text wsText 1500 300).map (fun ch => (ch.idx, ch.off)) = [(0, 1200), (1, 1201)]
    ∧ (chunk_text wsText 1500 300).head?.map Chunk.off ≠ some 0 := by
  refine ⟨by decide, by decide, by decide⟩

/-- C6 amended: for every chunker input whose trimmed text is non-empty and
whose first character is not whitespace (so the first window cannot be
whitespace-only), the first emitted chunk has chunk index 0 and begins at
byte offset 0.  When a whitespace-only prefix fills the first window(s),
the first emitted chunk instead begins at the start of the first window
with non-whitespace content. -/
theorem chunk_text_first_offset_amended (c : Char) (rest : List Char) (csize cover : Nat)
    (hcs : 1 ≤ csize) (hc : isPySpace c = false) :
    ∃ ch, (chunk_text (c :: rest) csize cover).head? = some ch
      ∧ ch.off = 0 ∧ ch.idx = 0 := by
  unfold chunk_text
  rw [if_neg (pyStrip_cons_ne_nil c rest hc)]
  by_cases h2 : (c :: rest).length ≤ csize
  · rw [if_pos h2]
    exact ⟨⟨c :: rest, 0, 0⟩, rfl, rfl, rfl⟩
  · rw [if_neg h2]
    have hlen : 0 < (c :: rest).length := by simp
    obtain ⟨fuel, hfuel⟩ : ∃ fuel, (c :: rest).length = fuel + 1 :=
      ⟨(c :: rest).length - 1, by omega⟩
    rw [hfuel, chunkLoop, if_pos (by simp)]
    have hend : 1 ≤ chunkEnd (c :: rest) csize 0 :=
      chunkEnd_gt (c :: rest) csize 0 (by simp) hcs
    have hslice : ∃ tl, pySlice (c :: rest) 0 (chunkEnd (c :: rest) csize 0) = c :: tl := by
      unfold pySlice
      rw [List.drop_zero]
      obtain ⟨e, he⟩ : ∃ e, chunkEnd (c :: rest) csize 0 = e + 1 :=
        ⟨chunkEnd (c :: rest) csize 0 - 1, by omega⟩
      rw [he, List.take_succ_cons]
      exact ⟨rest.take e, rfl⟩
    obtain ⟨tl, htl⟩ := hslice
    rw [htl, if_neg (pyStrip_cons_ne_nil c tl hc)]
    exact ⟨⟨c :: tl, 0, 0⟩, rfl, rfl, rfl⟩

/-- Witness for C6 (amended) at a concrete input. -/
theorem chunk_text_first_offset_amended_witness :
    1 ≤ 1500 ∧ isPySpace 'h' = false
    ∧ ∃ ch, (chunk_text ('h' :: "ello".data) 1500 300).head? = some ch
        ∧ ch.off = 0 ∧ ch.idx = 0 :=
  ⟨by decide, by decide,
   chunk_text_first_offset_amended 'h' "ello".data 1500 300 (by decide) (by decide)⟩

end Railyard
